import Mathlib

/-!
Verification of the tool-calling agent loop in `src/simple_client.py`.

The development shallowly embeds the Python source: Python values that the
program inspects dynamically become the inductive type `PyVal`; the pure
helpers `tool_result_to_text` and `build_openai_tools_schema` become Lean
functions of the same name; the orchestration loop in `main` (lines 136-248)
becomes the pure state-passing functions `execBatch`, `loopGo` and
`agent_run`, parameterised by the two external collaborators (the completion
endpoint and the MCP tool session) and recording every boundary crossing
(completion requests, tool invocations) in an explicit event trace.
`json.loads` is embedded as `json_loads`, a JSON parser on the
null/bool/integer/string/array/object fragment (non-integer numbers are
rejected rather than parsed as floats; no claim depends on float payloads).
-/

/-- A Python runtime value, restricted to the shapes `simple_client.py`
inspects: `None`, booleans, integers, strings, lists and dicts (modelled as
association lists; `simple_client.py` only ever reads dicts through `get`). -/
inductive PyVal where
  | none
  | bool (b : Bool)
  | int (n : Int)
  | str (s : String)
  | list (xs : List PyVal)
  | dict (kvs : List (String × PyVal))

mutual

/-- Python `repr` on a `PyVal`, used by `str` on containers. The exact text
never matters to a claim; it only has to be a fixed total rendering. -/
def pyRepr : PyVal → String
  | PyVal.none => "None"
  | PyVal.bool b => if b then "True" else "False"
  | PyVal.int n => toString n
  | PyVal.str s => "\x27" ++ s ++ "\x27"
  | PyVal.list xs => "[" ++ pyReprList xs ++ "]"
  | PyVal.dict kvs => "\x7b" ++ pyReprDict kvs ++ "\x7d"

/-- Comma-joined `repr` of list elements. -/
def pyReprList : List PyVal → String
  | [] => ""
  | [x] => pyRepr x
  | x :: y :: xs => pyRepr x ++ ", " ++ pyReprList (y :: xs)

/-- Comma-joined `repr` of dict entries. -/
def pyReprDict : List (String × PyVal) → String
  | [] => ""
  | [(k, v)] => "\x27" ++ k ++ "\x27: " ++ pyRepr v
  | (k, v) :: e :: kvs => "\x27" ++ k ++ "\x27: " ++ pyRepr v ++ ", " ++ pyReprDict (e :: kvs)

end

/-- Python `str()`: a string renders as itself, anything else as its `repr`. -/
def pyStr : PyVal → String
  | PyVal.str s => s
  | v => pyRepr v

/-- Python `dict.get(key)` on the association-list model (`None`,
i.e. `Option.none`, when the key is absent). -/
def dictGet : List (String × PyVal) → String → Option PyVal
  | [], _ => Option.none
  | (k, v) :: kvs, key => if k = key then some v else dictGet kvs key

/-- Python truthiness of a `PyVal` (`None`, `False`, `0`, `""` and empty
containers are falsy), used to embed `x or default`. -/
def pyTruthy : PyVal → Bool
  | PyVal.none => false
  | PyVal.bool b => b
  | PyVal.int n => n != 0
  | PyVal.str s => !s.isEmpty
  | PyVal.list xs => !xs.isEmpty
  | PyVal.dict kvs => !kvs.isEmpty

/-! ### `json.loads` (the fragment the client exchanges)

A fuel-indexed recursive-descent parser; `json_loads` supplies fuel larger
than the input so fuel never runs out on inputs the grammar accepts. -/

/-- JSON whitespace. -/
def isJsonWs (c : Char) : Bool :=
  c = ' ' || c = '\t' || c = '\n' || c = '\r'

/-- Drop leading JSON whitespace. -/
def skipWs (cs : List Char) : List Char :=
  cs.dropWhile isJsonWs

/-- Value of a hexadecimal digit. -/
def hexVal (c : Char) : Option Nat :=
  if '0' ≤ c ∧ c ≤ '9' then some (c.toNat - '0'.toNat)
  else if 'a' ≤ c ∧ c ≤ 'f' then some (c.toNat - 'a'.toNat + 10)
  else if 'A' ≤ c ∧ c ≤ 'F' then some (c.toNat - 'A'.toNat + 10)
  else Option.none

/-- Parse the body of a JSON string after the opening quote, returning the
decoded text and the remainder after the closing quote. -/
def parseStringBody : Nat → List Char → Option (String × List Char)
  | 0, _ => Option.none
  | _ + 1, [] => Option.none
  | fuel + 1, c :: rest =>
    if c = '"' then some ("", rest)
    else if c = '\\' then
      match rest with
      | [] => Option.none
      | e :: rest2 =>
        let put := fun (ch : Char) (rem : List Char) =>
          (parseStringBody fuel rem).map (fun p => (String.mk (ch :: p.1.data), p.2))
        if e = '"' then put '"' rest2
        else if e = '\\' then put '\\' rest2
        else if e = '/' then put '/' rest2
        else if e = 'n' then put '\n' rest2
        else if e = 't' then put '\t' rest2
        else if e = 'r' then put '\r' rest2
        else if e = 'b' then put (Char.ofNat 8) rest2
        else if e = 'f' then put (Char.ofNat 12) rest2
        else if e = 'u' then
          match rest2 with
          | a :: b :: c2 :: d :: rest3 =>
            match hexVal a, hexVal b, hexVal c2, hexVal d with
            | some ha, some hb, some hc, some hd =>
              put (Char.ofNat (((ha * 16 + hb) * 16 + hc) * 16 + hd)) rest3
            | _, _, _, _ => Option.none
          | _ => Option.none
        else Option.none
    else
      (parseStringBody fuel rest).map (fun p => (String.mk (c :: p.1.data), p.2))

/-- Digits to a natural number. -/
def digitsToNat (ds : List Char) : Nat :=
  ds.foldl (fun acc c => acc * 10 + (c.toNat - '0'.toNat)) 0

/-- Parse a JSON integer (an optional minus sign and digits; a fraction or
exponent makes the whole parse fail, see the module comment). -/
def parseNumber (cs : List Char) : Option (Int × List Char) :=
  let signed := match cs with
    | '-' :: r => (true, r)
    | _ => (false, cs)
  let ds := signed.2.takeWhile Char.isDigit
  let rest := signed.2.drop ds.length
  if ds.isEmpty then Option.none
  else match rest with
    | '.' :: _ => Option.none
    | 'e' :: _ => Option.none
    | 'E' :: _ => Option.none
    | _ =>
      let n : Int := Int.ofNat (digitsToNat ds)
      some ((if signed.1 then -n else n), rest)

mutual

/-- Parse one JSON value, returning it with the unconsumed remainder. -/
def parseVal : Nat → List Char → Option (PyVal × List Char)
  | 0, _ => Option.none
  | fuel + 1, cs =>
    match skipWs cs with
    | [] => Option.none
    | c :: rest =>
      if c = '"' then
        (parseStringBody (fuel + 1) rest).map (fun p => (PyVal.str p.1, p.2))
      else if c = '\x7b' then
        match skipWs rest with
        | '\x7d' :: r2 => some (PyVal.dict [], r2)
        | _ => parseMembers fuel rest []
      else if c = '[' then
        match skipWs rest with
        | ']' :: r2 => some (PyVal.list [], r2)
        | _ => parseItems fuel rest []
      else if c = 't' then
        match rest with
        | 'r' :: 'u' :: 'e' :: r2 => some (PyVal.bool true, r2)
        | _ => Option.none
      else if c = 'f' then
        match rest with
        | 'a' :: 'l' :: 's' :: 'e' :: r2 => some (PyVal.bool false, r2)
        | _ => Option.none
      else if c = 'n' then
        match rest with
        | 'u' :: 'l' :: 'l' :: r2 => some (PyVal.none, r2)
        | _ => Option.none
      else
        (parseNumber (c :: rest)).map (fun p => (PyVal.int p.1, p.2))

/-- Parse the members of a JSON object after the opening brace. -/
def parseMembers : Nat → List Char → List (String × PyVal) → Option (PyVal × List Char)
  | 0, _, _ => Option.none
  | fuel + 1, cs, acc =>
    match skipWs cs with
    | '"' :: rest =>
      match parseStringBody (fuel + 1) rest with
      | some (key, r1) =>
        match skipWs r1 with
        | ':' :: r2 =>
          match parseVal fuel r2 with
          | some (v, r3) =>
            match skipWs r3 with
            | ',' :: r4 => parseMembers fuel r4 (acc ++ [(key, v)])
            | '\x7d' :: r4 => some (PyVal.dict (acc ++ [(key, v)]), r4)
            | _ => Option.none
          | Option.none => Option.none
        | _ => Option.none
      | Option.none => Option.none
    | _ => Option.none

/-- Parse the items of a JSON array after the opening bracket. -/
def parseItems : Nat → List Char → List PyVal → Option (PyVal × List Char)
  | 0, _, _ => Option.none
  | fuel + 1, cs, acc =>
    match parseVal fuel cs with
    | some (v, r1) =>
      match skipWs r1 with
      | ',' :: r2 => parseItems fuel r2 (acc ++ [v])
      | ']' :: r2 => some (PyVal.list (acc ++ [v]), r2)
      | _ => Option.none
    | Option.none => Option.none

end

/-- Embedding of `json.loads`: the whole input must be one JSON value plus
trailing whitespace; anything else is a parse failure (`Option.none` stands
for `json.JSONDecodeError`). -/
def json_loads (s : String) : Option PyVal :=
  match parseVal (s.length + 1) s.data with
  | some (v, rest) => if (skipWs rest).isEmpty then some v else Option.none
  | Option.none => Option.none

/-! ### `tool_result_to_text` (src/simple_client.py lines 79-91) -/

/-- The `texts` list built by the block loop of `tool_result_to_text`:
for every dict block whose `"type"` is `"text"`, take its `"text"` value
(defaulting to `""` when absent); other blocks are skipped.  A non-string
`"text"` value makes the later `"\n".join(texts)` raise `TypeError`, which
the source catches — modelled by returning `Option.none`. -/
def blockTexts : List PyVal → Option (List String)
  | [] => some []
  | b :: bs =>
    match b with
    | PyVal.dict kvs =>
      match dictGet kvs "type" with
      | some (PyVal.str t) =>
        if t = "text" then
          match (dictGet kvs "text").getD (PyVal.str "") with
          | PyVal.str s => (blockTexts bs).map (fun ts => s :: ts)
          | _ => Option.none
        else blockTexts bs
      | _ => blockTexts bs
    | _ => blockTexts bs

/-- Embedding of `tool_result_to_text`.  A non-dict result has no `get`
method, so `result.get("content", [])` raises `AttributeError`; the
`except Exception` handler turns that, like every other failure, into
`str(result)`. -/
def tool_result_to_text (result : PyVal) : String :=
  match result with
  | PyVal.dict kvs =>
    match (dictGet kvs "content").getD (PyVal.list []) with
    | PyVal.list blocks =>
      match blockTexts blocks with
      | some ts => String.intercalate "\n" ts
      | Option.none => pyStr result
    | _ => pyStr result
  | _ => pyStr result

/-! ### `build_openai_tools_schema` (src/simple_client.py lines 53-77) -/

/-- One MCP tool descriptor as the builder receives it: either a Tool object
(the `hasattr(tool, "name")` branch, with attributes `name`, `description`,
`inputSchema`) or a plain dictionary. -/
inductive ToolDesc where
  | obj (name description inputSchema : PyVal)
  | dict (kvs : List (String × PyVal))

/-- The canonical empty-object parameter schema the source substitutes. -/
def emptySchema : PyVal :=
  PyVal.dict [("type", PyVal.str "object"), ("properties", PyVal.dict [])]

/-- The `function` part of one entry of the produced schema list (each entry
is wrapped as a dict with `"type": "function"`; that constant wrapper carries
no information and is left implicit). -/
structure FunctionSpec where
  name : PyVal
  description : PyVal
  parameters : PyVal

/-- Embedding of `build_openai_tools_schema`.  The object branch uses Python
`or` (truthiness), the dictionary branch uses `get` with a default. -/
def build_openai_tools_schema (tools : List ToolDesc) : List FunctionSpec :=
  tools.map fun tool =>
    match tool with
    | ToolDesc.obj name description inputSchema =>
      { name := name
        description := if pyTruthy description then description else PyVal.str ""
        parameters := if pyTruthy inputSchema then inputSchema else emptySchema }
    | ToolDesc.dict kvs =>
      { name := (dictGet kvs "name").getD (PyVal.str "unknown")
        description := (dictGet kvs "description").getD (PyVal.str "")
        parameters := (dictGet kvs "inputSchema").getD emptySchema }

/-! ### The agent loop of `main` (src/simple_client.py lines 136-248)

The two external collaborators are parameters:
* the completion endpoint is a deterministic stub
  `model : List Msg → Bool → AssistantMsg` receiving the exact message list
  sent and whether the tool schema is attached (`tools=openai_tools` versus
  the schema-free finalization request — the fixed model id, temperature and
  `tool_choice="auto"` carry no information);
* the MCP session is `callTool : String → PyVal → Except String PyVal`,
  `Except.error e` standing for a raised exception whose `str` is `e`.

Every boundary crossing is recorded in an `Event` trace in program order. -/

/-- One entry of `msg.tool_calls` as the loop reads it: `tc.id`, `tc.type`,
`tc.function.name` and `tc.function.arguments` (which the OpenAI SDK types as
an optional string). -/
structure ToolCall where
  id : String
  type : String
  name : String
  arguments : Option String
  deriving DecidableEq

/-- The part of a completion response the loop reads: `msg.content` and
`msg.tool_calls`; the empty list models the falsy `None`/`[]` that
`getattr(msg, "tool_calls", None)` checks for. -/
structure AssistantMsg where
  content : Option String
  tool_calls : List ToolCall

/-- One transcript entry, a tagged variant over the four roles the source
constructs. -/
inductive Msg where
  | system (content : String)
  | user (content : String)
  | assistant (content : String) (tool_calls : List ToolCall)
  | tool (tool_call_id : String) (content : String)
  deriving DecidableEq

/-- One boundary crossing: a completion request (with the exact message list
sent and whether the tool schema was attached) or one `call_tool` dispatch. -/
inductive Event where
  | completionRequest (messages : List Msg) (withTools : Bool)
  | invoke (name : String) (args : PyVal)

/-- `msg.content or ""` on an optional content field. -/
def contentOr (m : AssistantMsg) : String :=
  (m.content).getD ""

/-- `tc.function.arguments or "{}"` (Python `or`: `None` and `""` both give
the default). -/
def argString (tc : ToolCall) : String :=
  match tc.arguments with
  | some s => if s = "" then "\x7b\x7d" else s
  | Option.none => "\x7b\x7d"

/-- The parsed arguments actually dispatched: `json.loads` of the raw
payload, with the parse-failure handler substituting the empty dict. -/
def parsedArgs (tc : ToolCall) : PyVal :=
  (json_loads (argString tc)).getD (PyVal.dict [])

/-- The content of the tool message answering `tc`: the normalized result on
success, `f"Error: {str(e)}"` when `call_tool` raised. -/
def answerText (callTool : String → PyVal → Except String PyVal) (tc : ToolCall) : String :=
  match callTool tc.name (parsedArgs tc) with
  | Except.ok result => tool_result_to_text result
  | Except.error e => "Error: " ++ e

/-- The tool-execution round (lines 176-206): the `for tc in msg.tool_calls`
loop threading `messages`, the event trace and the `tool_calls_made` flag.
Only entries with `tc.type == "function"` are dispatched. -/
def execBatch (callTool : String → PyVal → Except String PyVal) :
    List ToolCall → List Msg → List Event → Bool → List Msg × List Event × Bool
  | [], messages, trace, made => (messages, trace, made)
  | tc :: rest, messages, trace, made =>
    if tc.type = "function" then
      execBatch callTool rest
        (messages ++ [Msg.tool tc.id (answerText callTool tc)])
        (trace ++ [Event.invoke tc.name (parsedArgs tc)])
        true
    else
      execBatch callTool rest messages trace made

/-- The text of the synthetic continuation nudge (line 214). -/
def nudgeText : String :=
  "Continue adding the remaining questions. Don\x27t ask for confirmation - just add them immediately."

/-- The synthetic continuation nudge sent (one-shot, never stored) with every
continuation completion request (line 214). -/
def nudgeMsg : Msg :=
  Msg.user nudgeText

/-- The `while iteration < max_iterations` loop (lines 171-235).  `remaining`
is `max_iterations - iteration`, so the guard `iteration < max_iterations`
is exactly `remaining > 0`.  Returns the final values of `iteration`,
`messages` and the trace. -/
def loopGo (model : List Msg → Bool → AssistantMsg)
    (callTool : String → PyVal → Except String PyVal) :
    Nat → AssistantMsg → List Msg → List Event → Nat → Nat × List Msg × List Event
  | 0, _, messages, trace, iteration => (iteration, messages, trace)
  | remaining + 1, msg, messages, trace, iteration =>
    let res := execBatch callTool msg.tool_calls messages trace false
    if res.2.2 = false then
      (iteration + 1, res.1, res.2.1)
    else
      let req := res.1 ++ [nudgeMsg]
      let trace2 := res.2.1 ++ [Event.completionRequest req true]
      let msg2 := model req true
      if msg2.tool_calls = [] then
        (iteration + 1, res.1, trace2)
      else
        loopGo model callTool remaining msg2
          (res.1 ++ [Msg.assistant (contentOr msg2) msg2.tool_calls]) trace2 (iteration + 1)

/-- What one run reports: the final text printed, the iteration count, the
final stored transcript and the boundary-event trace. -/
structure RunResult where
  output : Option String
  iterations : Nat
  messages : List Msg
  trace : List Event

/-- The orchestration core of `main` from seeding the transcript (line 136)
to the `finally` (line 247), with the iteration cap a parameter.  The first
completion request is issued with the tool schema; when its response carries
no tool calls the run ends there (no loop, no finalization); otherwise the
assistant message is appended, the loop runs, and one schema-free
finalization request produces the reported output. -/
def agent_run (model : List Msg → Bool → AssistantMsg)
    (callTool : String → PyVal → Except String PyVal)
    (sys usr : String) (max_iterations : Nat) : RunResult :=
  let seed := [Msg.system sys, Msg.user usr]
  let trace0 := [Event.completionRequest seed true]
  let msg := model seed true
  if msg.tool_calls = [] then
    { output := msg.content, iterations := 0, messages := seed, trace := trace0 }
  else
    let messages1 := seed ++ [Msg.assistant (contentOr msg) msg.tool_calls]
    let res := loopGo model callTool max_iterations msg messages1 trace0 0
    let traceF := res.2.2 ++ [Event.completionRequest res.2.1 false]
    let fin := model res.2.1 false
    { output := fin.content, iterations := res.1, messages := res.2.1, trace := traceF }

/-- `main` with the source's hard-coded `max_iterations = 10` (line 168). -/
def main_run (model : List Msg → Bool → AssistantMsg)
    (callTool : String → PyVal → Except String PyVal)
    (sys usr : String) : RunResult :=
  agent_run model callTool sys usr 10

/-! ### `MCPClient` lifecycle (src/simple_client.py lines 22-49)

The wrapped FastMCP `Client` is opaque; what `MCPClient` observably does to
it is call `__aenter__`/`__aexit__`, recorded as `SessionEvent`s. -/

/-- One delegated call on the underlying FastMCP client. -/
inductive SessionEvent where
  | enter
  | exit
  deriving DecidableEq

/-- The state of an `MCPClient`: `self.client`, `None` until `start`
assigns it (the handle itself is opaque). -/
structure MCPClient where
  client : Option Unit

/-- `MCPClient.__init__`: `self.client = None`. -/
def MCPClient.init : MCPClient :=
  { client := Option.none }

/-- `MCPClient.start`: construct the FastMCP client, assign it to
`self.client`, then `await self.client.__aenter__()`.  `ctorOk` is whether
the constructor succeeds (on failure `self.client` is never assigned),
`enterOk` whether `__aenter__` succeeds (it is called either way once the
assignment happened).  Returns the new state, the delegated calls and
whether `start` returned normally. -/
def MCPClient.start (s : MCPClient) (ctorOk enterOk : Bool) :
    MCPClient × List SessionEvent × Bool :=
  if ctorOk then ({ client := some () }, [SessionEvent.enter], enterOk)
  else (s, [], false)

/-- `MCPClient.stop`: `if self.client: await self.client.__aexit__(...)`.
Note that `self.client` is never reset to `None`. -/
def MCPClient.stop (s : MCPClient) : MCPClient × List SessionEvent :=
  match s.client with
  | Option.none => (s, [])
  | some _ => (s, [SessionEvent.exit])

/-! ### Transcript invariants and trace observations

These definitions formalise the spec properties under verification: the
request/answer pairing invariant of the transcript and counts of completion
requests in the event trace. -/

/-- The tool-call ids carried by one message (empty unless it is an
assistant message). -/
def msgToolCallIds : Msg → List String
  | Msg.assistant _ tcs => tcs.map ToolCall.id
  | _ => []

/-- All `ToolInvocationRequest` ids emitted by assistant messages of a
transcript, in order. -/
def asstIds (msgs : List Msg) : List String :=
  msgs.flatMap msgToolCallIds

/-- The ids answered by the tool messages of a transcript, in order. -/
def toolIdsOf (msgs : List Msg) : List String :=
  msgs.flatMap (fun m => match m with | Msg.tool j _ => [j] | _ => [])

/-- Whether `m` is a tool message answering id `i`. -/
def isToolMsgFor (i : String) : Msg → Bool
  | Msg.tool j _ => j == i
  | _ => false

/-- How many tool messages of the transcript answer id `i`. -/
def toolMsgCount (msgs : List Msg) (i : String) : Nat :=
  msgs.countP (isToolMsgFor i)

/-- Scan of the transcript: every tool message must answer exactly one
request id emitted by an assistant message strictly before it.  `seen`
accumulates the request ids of the assistant messages already passed. -/
def matchedFrom : List String → List Msg → Bool
  | _, [] => true
  | seen, Msg.tool j _ :: rest => (seen.count j == 1) && matchedFrom seen rest
  | seen, Msg.assistant _ tcs :: rest => matchedFrom (seen ++ tcs.map ToolCall.id) rest
  | seen, _ :: rest => matchedFrom seen rest

/-- Every request id emitted by an assistant message of the transcript is
answered by exactly one tool message of the transcript. -/
def requestsAnswered (msgs : List Msg) : Bool :=
  msgs.all (fun m => match m with
    | Msg.assistant _ tcs => tcs.all (fun tc => toolMsgCount msgs tc.id == 1)
    | _ => true)

/-- The transcript invariant of the spec: tool messages answer exactly one
prior request, and every request is answered exactly once. -/
def transcriptOK (msgs : List Msg) : Bool :=
  matchedFrom [] msgs && requestsAnswered msgs

/-- The number of completion requests issued with the tool schema attached
(the AwaitingCompletion transitions). -/
def toolRequestCount (trace : List Event) : Nat :=
  trace.countP (fun e => match e with | Event.completionRequest _ true => true | _ => false)

/-- The number of completion requests issued without the tool schema
(finalization calls). -/
def plainRequestCount (trace : List Event) : Nat :=
  trace.countP (fun e => match e with | Event.completionRequest _ false => true | _ => false)

/-- Whether the trace records any tool dispatch. -/
def hasInvoke (trace : List Event) : Bool :=
  trace.any (fun e => match e with | Event.invoke _ _ => true | _ => false)

/-- The tool messages a fully function-typed batch appends, in batch order. -/
def batchAnswers (callTool : String → PyVal → Except String PyVal)
    (tcs : List ToolCall) : List Msg :=
  tcs.map (fun tc => Msg.tool tc.id (answerText callTool tc))

/-- The dispatch events a fully function-typed batch records, in batch order. -/
def batchInvokes (tcs : List ToolCall) : List Event :=
  tcs.map (fun tc => Event.invoke tc.name (parsedArgs tc))

/-- Every request id emitted by an assistant message of the transcript is
answered by exactly one tool message (the Prop form used in proofs). -/
def allAnswered (msgs : List Msg) : Prop :=
  ∀ i ∈ asstIds msgs, toolMsgCount msgs i = 1

/-- The loop-entry invariant: the transcript ends with the assistant message
carrying the pending batch `tcs`; every earlier request is answered exactly
once; the pending ids are distinct, unanswered, fresh with respect to the
prefix, and all entries are function-typed. -/
def PendingInv (messages : List Msg) (tcs : List ToolCall) : Prop :=
  ∃ init c, messages = init ++ [Msg.assistant c tcs]
    ∧ matchedFrom [] messages = true
    ∧ (∀ i ∈ asstIds init, toolMsgCount messages i = 1)
    ∧ (tcs.map ToolCall.id).Nodup
    ∧ ∀ tc ∈ tcs, toolMsgCount messages tc.id = 0 ∧ tc.id ∉ asstIds init ∧ tc.type = "function"

/-! ### Concrete stub collaborators for witnesses and counterexamples -/

/-- A function-typed tool call with a fixed id. -/
def cxTc : ToolCall :=
  { id := "i", type := "function", name := "t", arguments := Option.none }

/-- A stub model that always requests one function-typed tool call. -/
def cxModel : List Msg → Bool → AssistantMsg := fun _ _ =>
  { content := some "c", tool_calls := [cxTc] }

/-- A stub tool session that always succeeds with an empty dict result. -/
def cxTool : String → PyVal → Except String PyVal := fun _ _ =>
  Except.ok (PyVal.dict [])

/-- A stub model that always requests one function-typed tool call whose id
is the length of the request transcript — distinct on every call of a run,
since the transcript strictly grows. -/
def dxModel : List Msg → Bool → AssistantMsg := fun m _ =>
  { content := some "c"
    tool_calls := [{ id := toString m.length, type := "function", name := "t",
                     arguments := Option.none }] }

/-- A stub model that never requests tools. -/
def exModel : List Msg → Bool → AssistantMsg := fun _ _ =>
  { content := some "hi", tool_calls := [] }

/-- A tool-call entry whose type is not `"function"`. -/
def nfTc : ToolCall :=
  { id := "i", type := "custom", name := "t", arguments := Option.none }

/-- A stub model that always requests one non-function-typed entry. -/
def nfModel : List Msg → Bool → AssistantMsg := fun _ _ =>
  { content := some "c", tool_calls := [nfTc] }

/-- An assistant response carrying only the non-function entry. -/
def nfAsst : AssistantMsg :=
  { content := some "c", tool_calls := [nfTc] }

/-- Two function-typed calls used to exercise batch order. -/
def wTc1 : ToolCall :=
  { id := "a", type := "function", name := "n1", arguments := some "\x7b\x7d" }

/-- Second batch entry. -/
def wTc2 : ToolCall :=
  { id := "b", type := "function", name := "n2", arguments := Option.none }

/-- A function-typed call whose arguments payload is not valid JSON. -/
def wBadTc : ToolCall :=
  { id := "x", type := "function", name := "nm", arguments := some "not json" }

/-- A stub tool session that always raises. -/
def wErrTool : String → PyVal → Except String PyVal := fun _ _ =>
  Except.error "boom"

/-- A string strictly longer than every element of `l`, hence not in `l`. -/
def freshId (l : List String) : String :=
  String.mk (List.replicate ((l.map String.length).foldr max 0 + 1) 'a')

/-- A stub model whose single function-typed call carries an id fresh for
the request transcript it received. -/
def fxModel : List Msg → Bool → AssistantMsg := fun m _ =>
  { content := some "c"
    tool_calls := [{ id := freshId (asstIds m ++ toolIdsOf m), type := "function",
                     name := "t", arguments := Option.none }] }

/-- A well-formed content-block result with two text blocks and one
non-text block. -/
def wfResult : PyVal :=
  PyVal.dict [("content", PyVal.list
    [PyVal.dict [("type", PyVal.str "text"), ("text", PyVal.str "A")],
     PyVal.dict [("type", PyVal.str "image")],
     PyVal.dict [("type", PyVal.str "text"), ("text", PyVal.str "B")]])]


/-! ### Helper lemmas on the batch executor -/

lemma execBatch_all_fn (callTool : String → PyVal → Except String PyVal)
    (tcs : List ToolCall) (h : ∀ tc ∈ tcs, tc.type = "function")
    (ms : List Msg) (tr : List Event) (made : Bool) :
    execBatch callTool tcs ms tr made
      = (ms ++ batchAnswers callTool tcs, tr ++ batchInvokes tcs, made || !tcs.isEmpty) := by
  induction tcs generalizing ms tr made with
  | nil => simp [execBatch, batchAnswers, batchInvokes]
  | cons tc rest ih =>
    have htc : tc.type = "function" := h tc (by simp)
    have hrest : ∀ t ∈ rest, t.type = "function" := fun t ht => h t (by simp [ht])
    simp only [execBatch, htc, if_pos rfl, ih hrest, batchAnswers, batchInvokes,
      List.map_cons, List.isEmpty_cons, Bool.not_false, Bool.or_true, List.append_assoc,
      List.singleton_append, Prod.mk.injEq, and_true, if_true]
    constructor
    · first | rfl | trivial
    · first | rfl | trivial

lemma execBatch_no_fn (callTool : String → PyVal → Except String PyVal)
    (tcs : List ToolCall) (h : ∀ tc ∈ tcs, tc.type ≠ "function")
    (ms : List Msg) (tr : List Event) (made : Bool) :
    execBatch callTool tcs ms tr made = (ms, tr, made) := by
  induction tcs generalizing ms tr made with
  | nil => simp [execBatch]
  | cons tc rest ih =>
    have htc : tc.type ≠ "function" := h tc (by simp)
    have hrest : ∀ t ∈ rest, t.type ≠ "function" := fun t ht => h t (by simp [ht])
    simp [execBatch, htc, ih hrest]

lemma execBatch_made_true (callTool : String → PyVal → Except String PyVal)
    (tcs : List ToolCall) (ms : List Msg) (tr : List Event) :
    (execBatch callTool tcs ms tr true).2.2 = true := by
  induction tcs generalizing ms tr with
  | nil => simp [execBatch]
  | cons tc rest ih =>
    by_cases htc : tc.type = "function" <;> simp [execBatch, htc, ih]

lemma execBatch_made_of_mem (callTool : String → PyVal → Except String PyVal)
    {tc : ToolCall} {tcs : List ToolCall} (hmem : tc ∈ tcs) (hfn : tc.type = "function")
    (ms : List Msg) (tr : List Event) (made : Bool) :
    (execBatch callTool tcs ms tr made).2.2 = true := by
  induction tcs generalizing ms tr made with
  | nil => cases hmem
  | cons hd rest ih =>
    rcases List.mem_cons.mp hmem with heq | hmem2
    · subst heq
      simp [execBatch, hfn, execBatch_made_true]
    · by_cases hhd : hd.type = "function" <;> simp [execBatch, hhd, ih hmem2]

lemma execBatch_trace_ext (callTool : String → PyVal → Except String PyVal)
    (tcs : List ToolCall) (ms : List Msg) (tr : List Event) (made : Bool) :
    ∃ l, (execBatch callTool tcs ms tr made).2.1 = tr ++ l
      ∧ ∀ e ∈ l, ∃ n a, e = Event.invoke n a := by
  induction tcs generalizing ms tr made with
  | nil => exact ⟨[], by simp [execBatch], by simp⟩
  | cons tc rest ih =>
    by_cases htc : tc.type = "function"
    · obtain ⟨l, hl, hinv⟩ := ih (ms ++ [Msg.tool tc.id (answerText callTool tc)])
        (tr ++ [Event.invoke tc.name (parsedArgs tc)]) true
      refine ⟨Event.invoke tc.name (parsedArgs tc) :: l, ?_, ?_⟩
      · simp [execBatch, htc, hl]
      · intro e he
        rcases List.mem_cons.mp he with heq | he2
        · exact ⟨tc.name, parsedArgs tc, heq⟩
        · exact hinv e he2
    · obtain ⟨l, hl, hinv⟩ := ih ms tr made
      exact ⟨l, by simp [execBatch, htc, hl], hinv⟩

lemma toolRequestCount_append (a b : List Event) :
    toolRequestCount (a ++ b) = toolRequestCount a + toolRequestCount b :=
  List.countP_append _ a b

lemma plainRequestCount_append (a b : List Event) :
    plainRequestCount (a ++ b) = plainRequestCount a + plainRequestCount b :=
  List.countP_append _ a b

lemma execBatch_toolRequestCount (callTool : String → PyVal → Except String PyVal)
    (tcs : List ToolCall) (ms : List Msg) (tr : List Event) (made : Bool) :
    toolRequestCount (execBatch callTool tcs ms tr made).2.1 = toolRequestCount tr := by
  obtain ⟨l, hl, hinv⟩ := execBatch_trace_ext callTool tcs ms tr made
  rw [hl, toolRequestCount_append]
  have : toolRequestCount l = 0 := by
    apply List.countP_eq_zero.mpr
    intro e he
    obtain ⟨n, a, rfl⟩ := hinv e he
    simp
  omega

lemma execBatch_plainRequestCount (callTool : String → PyVal → Except String PyVal)
    (tcs : List ToolCall) (ms : List Msg) (tr : List Event) (made : Bool) :
    plainRequestCount (execBatch callTool tcs ms tr made).2.1 = plainRequestCount tr := by
  obtain ⟨l, hl, hinv⟩ := execBatch_trace_ext callTool tcs ms tr made
  rw [hl, plainRequestCount_append]
  have : plainRequestCount l = 0 := by
    apply List.countP_eq_zero.mpr
    intro e he
    obtain ⟨n, a, rfl⟩ := hinv e he
    simp
  omega

lemma execBatch_request_mem (callTool : String → PyVal → Except String PyVal)
    (tcs : List ToolCall) (ms : List Msg) (tr : List Event) (made : Bool)
    {m : List Msg} {b : Bool}
    (h : Event.completionRequest m b ∈ (execBatch callTool tcs ms tr made).2.1) :
    Event.completionRequest m b ∈ tr := by
  obtain ⟨l, hl, hinv⟩ := execBatch_trace_ext callTool tcs ms tr made
  rw [hl] at h
  rcases List.mem_append.mp h with h1 | h2
  · exact h1
  · obtain ⟨n, a, heq⟩ := hinv _ h2
    cases heq

/-! ### Helper lemmas on the transcript invariant -/

lemma asstIds_append (a b : List Msg) : asstIds (a ++ b) = asstIds a ++ asstIds b :=
  List.flatMap_append a b msgToolCallIds

lemma toolIdsOf_append (a b : List Msg) : toolIdsOf (a ++ b) = toolIdsOf a ++ toolIdsOf b :=
  List.flatMap_append a b _

lemma toolMsgCount_append (a b : List Msg) (i : String) :
    toolMsgCount (a ++ b) i = toolMsgCount a i + toolMsgCount b i :=
  List.countP_append _ a b

lemma asstIds_cons (m : Msg) (rest : List Msg) :
    asstIds (m :: rest) = msgToolCallIds m ++ asstIds rest := by
  simp [asstIds]

lemma matchedFrom_append (seen : List String) (a b : List Msg) :
    matchedFrom seen (a ++ b) = (matchedFrom seen a && matchedFrom (seen ++ asstIds a) b) := by
  induction a generalizing seen with
  | nil => simp [matchedFrom, asstIds]
  | cons m rest ih =>
    cases m with
    | system c => simpa [matchedFrom, asstIds_cons, msgToolCallIds] using ih seen
    | user c => simpa [matchedFrom, asstIds_cons, msgToolCallIds] using ih seen
    | assistant c tcs =>
      simpa [matchedFrom, asstIds_cons, msgToolCallIds, List.append_assoc]
        using ih (seen ++ tcs.map ToolCall.id)
    | tool j c =>
      simp [matchedFrom, asstIds_cons, msgToolCallIds, ih seen, Bool.and_assoc]

lemma matchedFrom_batchAnswers (callTool : String → PyVal → Except String PyVal)
    (seen : List String) (tcs : List ToolCall) :
    matchedFrom seen (batchAnswers callTool tcs)
      = tcs.all (fun tc => seen.count tc.id == 1) := by
  induction tcs with
  | nil => simp [batchAnswers, matchedFrom]
  | cons tc rest ih =>
    have ih2 : matchedFrom seen (List.map (fun t => Msg.tool t.id (answerText callTool t)) rest)
        = rest.all (fun t => seen.count t.id == 1) := ih
    simp [batchAnswers, matchedFrom, ih2]

lemma asstIds_batchAnswers (callTool : String → PyVal → Except String PyVal)
    (tcs : List ToolCall) : asstIds (batchAnswers callTool tcs) = [] := by
  induction tcs with
  | nil => simp [batchAnswers, asstIds]
  | cons tc rest ih =>
    simpa [batchAnswers, asstIds_cons, msgToolCallIds] using ih

lemma toolMsgCount_batchAnswers (callTool : String → PyVal → Except String PyVal)
    (tcs : List ToolCall) (i : String) :
    toolMsgCount (batchAnswers callTool tcs) i = (tcs.map ToolCall.id).count i := by
  induction tcs with
  | nil => simp [batchAnswers, toolMsgCount]
  | cons tc rest ih =>
    have e1 : batchAnswers callTool (tc :: rest)
        = Msg.tool tc.id (answerText callTool tc) :: batchAnswers callTool rest := rfl
    have e2 : (tc :: rest).map ToolCall.id = tc.id :: rest.map ToolCall.id := rfl
    rw [e1, e2]
    show (Msg.tool tc.id (answerText callTool tc) :: batchAnswers callTool rest).countP
        (isToolMsgFor i) = _
    rw [List.countP_cons, List.count_cons]
    rw [show (batchAnswers callTool rest).countP (isToolMsgFor i)
        = toolMsgCount (batchAnswers callTool rest) i from rfl, ih]
    by_cases h : tc.id = i
    · subst h
      simp [isToolMsgFor]
    · simp [isToolMsgFor, h, Ne.symm h]

lemma toolMsgCount_eq_count_toolIdsOf (ms : List Msg) (i : String) :
    toolMsgCount ms i = (toolIdsOf ms).count i := by
  induction ms with
  | nil => simp [toolMsgCount, toolIdsOf]
  | cons m rest ih =>
    cases m with
    | tool j c =>
      have e1 : toolIdsOf (Msg.tool j c :: rest) = j :: toolIdsOf rest := by
        simp [toolIdsOf]
      rw [e1]
      show (Msg.tool j c :: rest).countP (isToolMsgFor i) = _
      rw [List.countP_cons, List.count_cons]
      rw [show rest.countP (isToolMsgFor i) = toolMsgCount rest i from rfl, ih]
      by_cases h : j = i
      · subst h
        simp [isToolMsgFor]
      · simp [isToolMsgFor, h, Ne.symm h]
    | system c =>
      simpa [toolMsgCount, List.countP_cons, toolIdsOf, isToolMsgFor] using ih
    | user c =>
      simpa [toolMsgCount, List.countP_cons, toolIdsOf, isToolMsgFor] using ih
    | assistant c tcs =>
      simpa [toolMsgCount, List.countP_cons, toolIdsOf, isToolMsgFor] using ih

lemma mem_asstIds_of_mem {c : String} {tcs : List ToolCall} {ms : List Msg}
    (hm : Msg.assistant c tcs ∈ ms) {tc : ToolCall} (htc : tc ∈ tcs) :
    tc.id ∈ asstIds ms := by
  apply List.mem_flatMap.mpr
  exact ⟨Msg.assistant c tcs, hm, by simpa [msgToolCallIds] using List.mem_map_of_mem ToolCall.id htc⟩

lemma pendingInv_after_batch (callTool : String → PyVal → Except String PyVal)
    {ms : List Msg} {tcs : List ToolCall} (h : PendingInv ms tcs) :
    matchedFrom [] (ms ++ batchAnswers callTool tcs) = true
      ∧ allAnswered (ms ++ batchAnswers callTool tcs) := by
  obtain ⟨init, c, hsplit, hmatch, hans, hnodup, hbatch⟩ := h
  have hids : asstIds ms = asstIds init ++ tcs.map ToolCall.id := by
    rw [hsplit, asstIds_append]
    simp [asstIds_cons, msgToolCallIds, asstIds]
  constructor
  · rw [matchedFrom_append, hmatch, Bool.true_and, matchedFrom_batchAnswers]
    apply List.all_eq_true.mpr
    intro tc htc
    have h1 : (asstIds init).count tc.id = 0 :=
      List.count_eq_zero.mpr (hbatch tc htc).2.1
    have h2 : (tcs.map ToolCall.id).count tc.id = 1 :=
      List.count_eq_one_of_mem hnodup (List.mem_map_of_mem _ htc)
    simp [hids, List.count_append, h1, h2]
  · intro i hi
    rw [asstIds_append, asstIds_batchAnswers, List.append_nil, hids] at hi
    rw [toolMsgCount_append, toolMsgCount_batchAnswers]
    rcases List.mem_append.mp hi with h1 | h2
    · have hc1 : toolMsgCount ms i = 1 := hans i h1
      have hc0 : (tcs.map ToolCall.id).count i = 0 := by
        apply List.count_eq_zero.mpr
        intro hmem
        obtain ⟨tc, htc, rfl⟩ := List.mem_map.mp hmem
        exact (hbatch tc htc).2.1 h1
      omega
    · obtain ⟨tc, htc, rfl⟩ := List.mem_map.mp h2
      have hc0 : toolMsgCount ms tc.id = 0 := (hbatch tc htc).1
      have hc1 : (tcs.map ToolCall.id).count tc.id = 1 :=
        List.count_eq_one_of_mem hnodup (List.mem_map_of_mem _ htc)
      omega

lemma transcriptOK_of {ms : List Msg} (h1 : matchedFrom [] ms = true)
    (h2 : allAnswered ms) : transcriptOK ms = true := by
  unfold transcriptOK
  rw [h1, Bool.true_and]
  apply List.all_eq_true.mpr
  intro m hm
  cases m with
  | assistant c tcs =>
    apply List.all_eq_true.mpr
    intro tc htc
    have := h2 _ (mem_asstIds_of_mem hm htc)
    simp [this]
  | system c => rfl
  | user c => rfl
  | tool j c => rfl

lemma asstIds_append_user (ms : List Msg) (s : String) :
    asstIds (ms ++ [Msg.user s]) = asstIds ms := by
  simp [asstIds_append, asstIds_cons, msgToolCallIds, asstIds]

lemma toolIdsOf_append_user (ms : List Msg) (s : String) :
    toolIdsOf (ms ++ [Msg.user s]) = toolIdsOf ms := by
  simp [toolIdsOf_append, toolIdsOf]

lemma toolMsgCount_append_user (ms : List Msg) (s : String) (i : String) :
    toolMsgCount (ms ++ [Msg.user s]) i = toolMsgCount ms i := by
  rw [toolMsgCount_append]
  simp [toolMsgCount, isToolMsgFor]

lemma matchedFrom_append_user (ms : List Msg) (s : String) :
    matchedFrom [] (ms ++ [Msg.user s]) = matchedFrom [] ms := by
  rw [matchedFrom_append]
  simp [matchedFrom]

lemma allAnswered_append_user {ms : List Msg} (s : String) (h : allAnswered ms) :
    allAnswered (ms ++ [Msg.user s]) := by
  intro i hi
  rw [asstIds_append_user] at hi
  rw [toolMsgCount_append_user]
  exact h i hi

lemma pendingInv_extend {ms : List Msg} (h1 : matchedFrom [] ms = true)
    (h2 : allAnswered ms) {tcs2 : List ToolCall} (c : String)
    (hnodup : (tcs2.map ToolCall.id).Nodup)
    (hfn : ∀ tc ∈ tcs2, tc.type = "function")
    (hfresh : ∀ tc ∈ tcs2, tc.id ∉ asstIds ms ∧ tc.id ∉ toolIdsOf ms) :
    PendingInv (ms ++ [Msg.assistant c tcs2]) tcs2 := by
  refine ⟨ms, c, rfl, ?_, ?_, hnodup, ?_⟩
  · rw [matchedFrom_append, h1, Bool.true_and]
    rfl
  · intro i hi
    rw [toolMsgCount_append]
    have h0 : toolMsgCount [Msg.assistant c tcs2] i = 0 := rfl
    rw [h0, h2 i hi]
  · intro tc htc
    refine ⟨?_, (hfresh tc htc).1, hfn tc htc⟩
    rw [toolMsgCount_append]
    have ha : toolMsgCount [Msg.assistant c tcs2] tc.id = 0 := rfl
    have hb : toolMsgCount ms tc.id = 0 := by
      rw [toolMsgCount_eq_count_toolIdsOf]
      exact List.count_eq_zero.mpr (hfresh tc htc).2
    rw [ha, hb]

/-! ### Helper lemmas on the loop -/

lemma loopGo_succ_eq (model : List Msg → Bool → AssistantMsg)
    (callTool : String → PyVal → Except String PyVal)
    (r : Nat) (msg : AssistantMsg) (ms : List Msg) (tr : List Event) (it : Nat) :
    loopGo model callTool (r + 1) msg ms tr it =
      (let res := execBatch callTool msg.tool_calls ms tr false
       if res.2.2 = false then (it + 1, res.1, res.2.1)
       else
         let req := res.1 ++ [nudgeMsg]
         let trace2 := res.2.1 ++ [Event.completionRequest req true]
         let msg2 := model req true
         if msg2.tool_calls = [] then (it + 1, res.1, trace2)
         else loopGo model callTool r msg2
           (res.1 ++ [Msg.assistant (contentOr msg2) msg2.tool_calls]) trace2 (it + 1)) := by
  rw [loopGo]

lemma request_not_mem_batchInvokes {m : List Msg} {b : Bool} (tcs : List ToolCall) :
    Event.completionRequest m b ∉ batchInvokes tcs := by
  intro h
  rw [batchInvokes] at h
  obtain ⟨tc, _, heq⟩ := List.mem_map.mp h
  cases heq

lemma loopGo_succ_all_fn (model : List Msg → Bool → AssistantMsg)
    (callTool : String → PyVal → Except String PyVal)
    (r : Nat) {msg : AssistantMsg} {t : ToolCall} {ts : List ToolCall}
    (htcs : msg.tool_calls = t :: ts)
    (hall : ∀ tc ∈ msg.tool_calls, tc.type = "function")
    (ms : List Msg) (tr : List Event) (it : Nat)
    {ms1 : List Msg} {req : List Msg} {tr2 : List Event} {msg2 : AssistantMsg}
    (hms1 : ms1 = ms ++ batchAnswers callTool msg.tool_calls)
    (hreq : req = ms1 ++ [nudgeMsg])
    (htr2 : tr2 = (tr ++ batchInvokes msg.tool_calls) ++ [Event.completionRequest req true])
    (hmsg2 : msg2 = model req true) :
    loopGo model callTool (r + 1) msg ms tr it =
      if msg2.tool_calls = [] then (it + 1, ms1, tr2)
      else loopGo model callTool r msg2
        (ms1 ++ [Msg.assistant (contentOr msg2) msg2.tool_calls]) tr2 (it + 1) := by
  subst hms1
  subst hreq
  subst htr2
  subst hmsg2
  rw [loopGo_succ_eq]
  rw [execBatch_all_fn callTool msg.tool_calls hall ms tr false]
  rw [htcs]
  simp only [List.isEmpty_cons, Bool.not_false, Bool.or_true, Bool.false_or]
  simp [← htcs]

lemma loopGo_requests_ok (model : List Msg → Bool → AssistantMsg)
    (callTool : String → PyVal → Except String PyVal)
    (hNodup : ∀ m b, (((model m b).tool_calls).map ToolCall.id).Nodup)
    (hType : ∀ m b, ∀ tc ∈ (model m b).tool_calls, tc.type = "function")
    (hFresh : ∀ m b, ∀ tc ∈ (model m b).tool_calls, tc.id ∉ asstIds m ∧ tc.id ∉ toolIdsOf m)
    (remaining : Nat) :
    ∀ (msg : AssistantMsg) (ms : List Msg) (tr : List Event) (it : Nat),
      PendingInv ms msg.tool_calls →
      (∀ m, Event.completionRequest m true ∈ tr → transcriptOK m = true) →
      ∀ m, Event.completionRequest m true ∈ (loopGo model callTool remaining msg ms tr it).2.2 →
        transcriptOK m = true := by
  induction remaining with
  | zero =>
    intro msg ms tr it _ htr m hm
    exact htr m hm
  | succ r ih =>
    intro msg ms tr it hpend htr m hm
    have hall : ∀ tc ∈ msg.tool_calls, tc.type = "function" := by
      obtain ⟨init, c, _, _, _, _, hbatch⟩ := hpend
      exact fun tc htc => (hbatch tc htc).2.2
    cases htcs : msg.tool_calls with
    | nil =>
      have heq : loopGo model callTool (r + 1) msg ms tr it = (it + 1, ms, tr) := by
        rw [loopGo_succ_eq, htcs]
        rfl
      rw [heq] at hm
      exact htr m hm
    | cons t ts =>
      obtain ⟨hmOK, hansOK⟩ := pendingInv_after_batch callTool hpend
      rw [loopGo_succ_all_fn model callTool r htcs hall ms tr it rfl rfl rfl rfl] at hm
      have hreqOK : transcriptOK ((ms ++ batchAnswers callTool msg.tool_calls) ++ [nudgeMsg])
          = true := by
        apply transcriptOK_of
        · rw [show nudgeMsg = Msg.user nudgeText from rfl, matchedFrom_append_user]
          exact hmOK
        · rw [show nudgeMsg = Msg.user nudgeText from rfl]
          exact allAnswered_append_user nudgeText hansOK
      have htr2OK : ∀ m', Event.completionRequest m' true ∈
          (tr ++ batchInvokes msg.tool_calls)
            ++ [Event.completionRequest ((ms ++ batchAnswers callTool msg.tool_calls)
                  ++ [nudgeMsg]) true] →
          transcriptOK m' = true := by
        intro m' hmem
        rcases List.mem_append.mp hmem with hmem1 | hmem2
        · rcases List.mem_append.mp hmem1 with hmem3 | hmem4
          · exact htr m' hmem3
          · exact absurd hmem4 (request_not_mem_batchInvokes _)
        · have heq := List.mem_singleton.mp hmem2
          cases heq
          exact hreqOK
      by_cases hdone :
          (model ((ms ++ batchAnswers callTool msg.tool_calls) ++ [nudgeMsg]) true).tool_calls
            = []
      · rw [if_pos hdone] at hm
        exact htr2OK m hm
      · rw [if_neg hdone] at hm
        apply ih _ _ _ _ ?_ htr2OK m hm
        have hfr := hFresh ((ms ++ batchAnswers callTool msg.tool_calls) ++ [nudgeMsg]) true
        apply pendingInv_extend hmOK hansOK _ (hNodup _ true) (hType _ true)
        intro tc htc
        have := hfr tc htc
        rwa [show nudgeMsg = Msg.user nudgeText from rfl, asstIds_append_user,
          toolIdsOf_append_user] at this

lemma loopGo_succ_made (model : List Msg → Bool → AssistantMsg)
    (callTool : String → PyVal → Except String PyVal)
    (r : Nat) (msg : AssistantMsg) (ms : List Msg) (tr : List Event) (it : Nat)
    (hmade : (execBatch callTool msg.tool_calls ms tr false).2.2 = true)
    {ms1 : List Msg} {tr2 : List Event} {msg2 : AssistantMsg}
    (hms1 : ms1 = (execBatch callTool msg.tool_calls ms tr false).1)
    (htr2 : tr2 = (execBatch callTool msg.tool_calls ms tr false).2.1
      ++ [Event.completionRequest (ms1 ++ [nudgeMsg]) true])
    (hmsg2 : msg2 = model (ms1 ++ [nudgeMsg]) true) :
    loopGo model callTool (r + 1) msg ms tr it =
      if msg2.tool_calls = [] then (it + 1, ms1, tr2)
      else loopGo model callTool r msg2
        (ms1 ++ [Msg.assistant (contentOr msg2) msg2.tool_calls]) tr2 (it + 1) := by
  subst hms1
  subst htr2
  subst hmsg2
  rw [loopGo_succ_eq]
  simp [hmade]

lemma loopGo_count (model : List Msg → Bool → AssistantMsg)
    (callTool : String → PyVal → Except String PyVal)
    (H : ∀ m, ∃ tc ∈ (model m true).tool_calls, tc.type = "function")
    (remaining : Nat) :
    ∀ (msg : AssistantMsg) (ms : List Msg) (tr : List Event) (it : Nat),
      (∃ tc ∈ msg.tool_calls, tc.type = "function") →
      (loopGo model callTool remaining msg ms tr it).1 = it + remaining ∧
      toolRequestCount (loopGo model callTool remaining msg ms tr it).2.2
        = toolRequestCount tr + remaining := by
  induction remaining with
  | zero =>
    intro msg ms tr it _
    exact ⟨rfl, rfl⟩
  | succ r ih =>
    intro msg ms tr it hex
    obtain ⟨tc, htc, hfn⟩ := hex
    have hmade : (execBatch callTool msg.tool_calls ms tr false).2.2 = true :=
      execBatch_made_of_mem callTool htc hfn ms tr false
    rw [loopGo_succ_made model callTool r msg ms tr it hmade rfl rfl rfl]
    have hne : (model ((execBatch callTool msg.tool_calls ms tr false).1 ++ [nudgeMsg])
        true).tool_calls ≠ [] := by
      obtain ⟨tc2, htc2, _⟩ :=
        H ((execBatch callTool msg.tool_calls ms tr false).1 ++ [nudgeMsg])
      intro hnil
      rw [hnil] at htc2
      cases htc2
    rw [if_neg hne]
    obtain ⟨h1, h2⟩ := ih _ _ _ _
      (H ((execBatch callTool msg.tool_calls ms tr false).1 ++ [nudgeMsg]))
    refine ⟨by rw [h1]; omega, ?_⟩
    rw [h2, toolRequestCount_append, execBatch_toolRequestCount]
    have hone : toolRequestCount [Event.completionRequest
        ((execBatch callTool msg.tool_calls ms tr false).1 ++ [nudgeMsg]) true] = 1 := rfl
    rw [hone]
    omega

lemma loopGo_plain (model : List Msg → Bool → AssistantMsg)
    (callTool : String → PyVal → Except String PyVal) (remaining : Nat) :
    ∀ (msg : AssistantMsg) (ms : List Msg) (tr : List Event) (it : Nat),
      plainRequestCount (loopGo model callTool remaining msg ms tr it).2.2
        = plainRequestCount tr := by
  induction remaining with
  | zero =>
    intro msg ms tr it
    rfl
  | succ r ih =>
    intro msg ms tr it
    by_cases hmade : (execBatch callTool msg.tool_calls ms tr false).2.2 = true
    · rw [loopGo_succ_made model callTool r msg ms tr it hmade rfl rfl rfl]
      have hplain2 : plainRequestCount ((execBatch callTool msg.tool_calls ms tr false).2.1
          ++ [Event.completionRequest
            ((execBatch callTool msg.tool_calls ms tr false).1 ++ [nudgeMsg]) true])
          = plainRequestCount tr := by
        rw [plainRequestCount_append, execBatch_plainRequestCount]
        rfl
      by_cases hdone : (model ((execBatch callTool msg.tool_calls ms tr false).1 ++ [nudgeMsg])
          true).tool_calls = []
      · rw [if_pos hdone]
        exact hplain2
      · rw [if_neg hdone]
        rw [ih _ _ _ _]
        exact hplain2
    · have hmade' : (execBatch callTool msg.tool_calls ms tr false).2.2 = false := by
        cases h : (execBatch callTool msg.tool_calls ms tr false).2.2
        · rfl
        · exact absurd h hmade
      rw [loopGo_succ_eq]
      simp only [hmade', if_true]
      exact execBatch_plainRequestCount callTool msg.tool_calls ms tr false

lemma loopGo_trace_ext (model : List Msg → Bool → AssistantMsg)
    (callTool : String → PyVal → Except String PyVal) (remaining : Nat) :
    ∀ (msg : AssistantMsg) (ms : List Msg) (tr : List Event) (it : Nat),
      ∃ l, (loopGo model callTool remaining msg ms tr it).2.2 = tr ++ l := by
  induction remaining with
  | zero =>
    intro msg ms tr it
    exact ⟨[], by simp [loopGo]⟩
  | succ r ih =>
    intro msg ms tr it
    obtain ⟨l0, hl0, _⟩ := execBatch_trace_ext callTool msg.tool_calls ms tr false
    by_cases hmade : (execBatch callTool msg.tool_calls ms tr false).2.2 = true
    · rw [loopGo_succ_made model callTool r msg ms tr it hmade rfl rfl rfl]
      by_cases hdone : (model ((execBatch callTool msg.tool_calls ms tr false).1 ++ [nudgeMsg])
          true).tool_calls = []
      · rw [if_pos hdone]
        refine ⟨l0 ++ [Event.completionRequest
          ((execBatch callTool msg.tool_calls ms tr false).1 ++ [nudgeMsg]) true], ?_⟩
        rw [hl0, List.append_assoc]
      · rw [if_neg hdone]
        obtain ⟨l2, hl2⟩ := ih _ _ _ _
        refine ⟨(l0 ++ [Event.completionRequest
          ((execBatch callTool msg.tool_calls ms tr false).1 ++ [nudgeMsg]) true]) ++ l2, ?_⟩
        rw [hl2, hl0]
        simp [List.append_assoc]
    · have hmade' : (execBatch callTool msg.tool_calls ms tr false).2.2 = false := by
        cases h : (execBatch callTool msg.tool_calls ms tr false).2.2
        · rfl
        · exact absurd h hmade
      rw [loopGo_succ_eq]
      simp only [hmade', if_true]
      exact ⟨l0, hl0⟩

/-! ### Run-level helper lemmas -/

lemma toolRequestCount_singleton_true (m : List Msg) :
    toolRequestCount [Event.completionRequest m true] = 1 := rfl

lemma toolRequestCount_singleton_false (m : List Msg) :
    toolRequestCount [Event.completionRequest m false] = 0 := rfl

lemma plainRequestCount_singleton_true (m : List Msg) :
    plainRequestCount [Event.completionRequest m true] = 0 := rfl

lemma plainRequestCount_singleton_false (m : List Msg) :
    plainRequestCount [Event.completionRequest m false] = 1 := rfl

lemma agent_run_no_tools (model : List Msg → Bool → AssistantMsg)
    (callTool : String → PyVal → Except String PyVal) (sys usr : String) (cap : Nat)
    (h : (model [Msg.system sys, Msg.user usr] true).tool_calls = []) :
    agent_run model callTool sys usr cap =
      { output := (model [Msg.system sys, Msg.user usr] true).content
        iterations := 0
        messages := [Msg.system sys, Msg.user usr]
        trace := [Event.completionRequest [Msg.system sys, Msg.user usr] true] } := by
  unfold agent_run
  simp only [h, if_true]

lemma agent_run_with_tools (model : List Msg → Bool → AssistantMsg)
    (callTool : String → PyVal → Except String PyVal) (sys usr : String) (cap : Nat)
    (h : (model [Msg.system sys, Msg.user usr] true).tool_calls ≠ [])
    {msg : AssistantMsg} (hmsg : msg = model [Msg.system sys, Msg.user usr] true)
    {res : Nat × List Msg × List Event}
    (hres : res = loopGo model callTool cap msg
      ([Msg.system sys, Msg.user usr] ++ [Msg.assistant (contentOr msg) msg.tool_calls])
      [Event.completionRequest [Msg.system sys, Msg.user usr] true] 0) :
    (agent_run model callTool sys usr cap).output = (model res.2.1 false).content
    ∧ (agent_run model callTool sys usr cap).iterations = res.1
    ∧ (agent_run model callTool sys usr cap).messages = res.2.1
    ∧ (agent_run model callTool sys usr cap).trace
        = res.2.2 ++ [Event.completionRequest res.2.1 false] := by
  subst hmsg
  subst hres
  unfold agent_run
  simp only [h, if_neg]
  simp

lemma allAnswered_seed (sys usr : String) : allAnswered [Msg.system sys, Msg.user usr] := by
  intro i hi
  simp [asstIds, msgToolCallIds] at hi

lemma transcriptOK_seed (sys usr : String) :
    transcriptOK [Msg.system sys, Msg.user usr] = true := rfl

/-! ### Claim theorems -/

/-- Claim C1, corrected: when the stub model returns at least one
function-typed tool-invocation request on every tool-schema completion, the
run performs exactly `cap` tool-execution rounds (`iterations = cap`) but
`cap + 1` AwaitingCompletion transitions — completion requests with the tool
schema attached: the initial request plus one continuation request per
round — and then halts with exactly one schema-free finalization request.
The claim's count of exactly `cap` such requests is off by one. -/
theorem iteration_cap_amended (model : List Msg → Bool → AssistantMsg)
    (callTool : String → PyVal → Except String PyVal) (sys usr : String) (cap : Nat)
    (H : ∀ m, ∃ tc ∈ (model m true).tool_calls, tc.type = "function") :
    (agent_run model callTool sys usr cap).iterations = cap
      ∧ toolRequestCount (agent_run model callTool sys usr cap).trace = cap + 1
      ∧ plainRequestCount (agent_run model callTool sys usr cap).trace = 1 := by
  have h0 : (model [Msg.system sys, Msg.user usr] true).tool_calls ≠ [] := by
    obtain ⟨tc, htc, _⟩ := H [Msg.system sys, Msg.user usr]
    intro h
    rw [h] at htc
    cases htc
  obtain ⟨ho, hi, hm, ht⟩ := agent_run_with_tools model callTool sys usr cap h0 rfl rfl
  obtain ⟨h1, h2⟩ := loopGo_count model callTool H cap
    (model [Msg.system sys, Msg.user usr] true)
    ([Msg.system sys, Msg.user usr]
      ++ [Msg.assistant (contentOr (model [Msg.system sys, Msg.user usr] true))
            (model [Msg.system sys, Msg.user usr] true).tool_calls])
    [Event.completionRequest [Msg.system sys, Msg.user usr] true] 0
    (H [Msg.system sys, Msg.user usr])
  refine ⟨?_, ?_, ?_⟩
  · rw [hi, h1]
    omega
  · rw [ht, toolRequestCount_append, h2, toolRequestCount_singleton_true,
      toolRequestCount_singleton_false]
    omega
  · rw [ht, plainRequestCount_append, loopGo_plain, plainRequestCount_singleton_true,
      plainRequestCount_singleton_false]

/-- Claim C2, corrected: assuming the model emits only function-typed
tool-invocation requests whose ids are batch-distinct and fresh with respect
to the request transcript, every completion request issued with the tool
schema attached satisfies the pairing invariant `transcriptOK`.  The claim's
inclusion of the finalization call fails: when the cap is hit (or a batch
contains no function-typed entry) the finalization request is issued while
the last assistant message's requests are unanswered, see the
counterexample. -/
theorem transcript_invariant_amended (model : List Msg → Bool → AssistantMsg)
    (callTool : String → PyVal → Except String PyVal) (sys usr : String) (cap : Nat)
    (hNodup : ∀ m b, (((model m b).tool_calls).map ToolCall.id).Nodup)
    (hType : ∀ m b, ∀ tc ∈ (model m b).tool_calls, tc.type = "function")
    (hFresh : ∀ m b, ∀ tc ∈ (model m b).tool_calls,
      tc.id ∉ asstIds m ∧ tc.id ∉ toolIdsOf m) :
    ∀ m, Event.completionRequest m true ∈ (agent_run model callTool sys usr cap).trace →
      transcriptOK m = true := by
  intro m hm
  by_cases h0 : (model [Msg.system sys, Msg.user usr] true).tool_calls = []
  · rw [agent_run_no_tools model callTool sys usr cap h0] at hm
    have heq := List.mem_singleton.mp hm
    injection heq with h1 h2
    subst h1
    exact transcriptOK_seed sys usr
  · obtain ⟨ho, hi, hms, ht⟩ := agent_run_with_tools model callTool sys usr cap h0 rfl rfl
    rw [ht] at hm
    rcases List.mem_append.mp hm with hm1 | hm2
    · refine loopGo_requests_ok model callTool hNodup hType hFresh cap _ _ _ _ ?_ ?_ m hm1
      · exact pendingInv_extend
          (show matchedFrom [] [Msg.system sys, Msg.user usr] = true from rfl)
          (allAnswered_seed sys usr) _ (hNodup _ true) (hType _ true) (hFresh _ true)
      · intro m' hm'
        have heq := List.mem_singleton.mp hm'
        injection heq with h1 h2
        subst h1
        exact transcriptOK_seed sys usr
    · have heq := List.mem_singleton.mp hm2
      injection heq with h1 h2
      exact absurd h2 (by decide)

/-- Claim C3, confirmed: a run that dispatched at least one tool call issues
exactly one schema-free completion request, as the final boundary event, and
that request's response text is the run's reported output; a run whose very
first completion response carries no tool-invocation requests issues exactly
one completion request in total and reports that first response's text
directly, with no finalization call. -/
theorem finalization_policy (model : List Msg → Bool → AssistantMsg)
    (callTool : String → PyVal → Except String PyVal) (sys usr : String) :
    (hasInvoke (main_run model callTool sys usr).trace = true →
      plainRequestCount (main_run model callTool sys usr).trace = 1
      ∧ (main_run model callTool sys usr).trace.getLast?
          = some (Event.completionRequest (main_run model callTool sys usr).messages false)
      ∧ (main_run model callTool sys usr).output
          = (model (main_run model callTool sys usr).messages false).content)
    ∧ ((model [Msg.system sys, Msg.user usr] true).tool_calls = [] →
      (main_run model callTool sys usr).trace
          = [Event.completionRequest [Msg.system sys, Msg.user usr] true]
      ∧ (main_run model callTool sys usr).output
          = (model [Msg.system sys, Msg.user usr] true).content) := by
  constructor
  · intro hinv
    by_cases h0 : (model [Msg.system sys, Msg.user usr] true).tool_calls = []
    · rw [main_run, agent_run_no_tools model callTool sys usr 10 h0] at hinv
      simp [hasInvoke] at hinv
    · rw [main_run] at hinv ⊢
      obtain ⟨ho, hi, hms, ht⟩ := agent_run_with_tools model callTool sys usr 10 h0 rfl rfl
      refine ⟨?_, ?_, ?_⟩
      · rw [ht, plainRequestCount_append, loopGo_plain, plainRequestCount_singleton_true,
          plainRequestCount_singleton_false]
      · rw [ht, hms]
        exact List.getLast?_concat _
      · rw [ho, hms]
  · intro h0
    rw [main_run, agent_run_no_tools model callTool sys usr 10 h0]
    exact ⟨rfl, rfl⟩

lemma execBatch_msgs_ext (callTool : String → PyVal → Except String PyVal)
    (tcs : List ToolCall) (ms : List Msg) (tr : List Event) (made : Bool) :
    ∃ l, (execBatch callTool tcs ms tr made).1 = ms ++ l := by
  induction tcs generalizing ms tr made with
  | nil => exact ⟨[], by simp [execBatch]⟩
  | cons tc rest ih =>
    by_cases htc : tc.type = "function"
    · obtain ⟨l, hl⟩ := ih (ms ++ [Msg.tool tc.id (answerText callTool tc)])
        (tr ++ [Event.invoke tc.name (parsedArgs tc)]) true
      exact ⟨[Msg.tool tc.id (answerText callTool tc)] ++ l, by simp [execBatch, htc, hl]⟩
    · obtain ⟨l, hl⟩ := ih ms tr made
      exact ⟨l, by simp [execBatch, htc, hl]⟩

/-- Claim C4, confirmed: for every batch of ToolInvocationRequests (the
function-typed tool-call entries of an assistant message), `call_tool` is
dispatched once per request, strictly sequentially, in exactly the order the
model produced them — no reordering, no deduplication, no parallel
dispatch — and the answering tool messages are appended to the transcript in
that same order: the dispatched events and the appended messages are the
map of the batch, in batch order. -/
theorem sequential_dispatch_order (callTool : String → PyVal → Except String PyVal)
    (tcs : List ToolCall) (h : ∀ tc ∈ tcs, tc.type = "function")
    (ms : List Msg) (tr : List Event) (made : Bool) :
    execBatch callTool tcs ms tr made
      = (ms ++ tcs.map (fun tc => Msg.tool tc.id (answerText callTool tc)),
         tr ++ tcs.map (fun tc => Event.invoke tc.name (parsedArgs tc)),
         made || !tcs.isEmpty) :=
  execBatch_all_fn callTool tcs h ms tr made

/-- Claim C7, confirmed: a function-typed request whose raw arguments
payload fails to parse is still dispatched: the parse-failure handler
substitutes the empty argument set, `call_tool` receives the tool name with
that empty set, the answering tool message is appended, and the batch — and
hence the run — continues with the remaining requests; no parse exception
surfaces (the embedding of the handler is total). -/
theorem parse_failure_empty_args (callTool : String → PyVal → Except String PyVal)
    (tc : ToolCall) (rest : List ToolCall) (ms : List Msg) (tr : List Event) (made : Bool)
    (hfn : tc.type = "function") (hparse : json_loads (argString tc) = Option.none) :
    parsedArgs tc = PyVal.dict []
    ∧ execBatch callTool (tc :: rest) ms tr made
      = execBatch callTool rest
          (ms ++ [Msg.tool tc.id (answerText callTool tc)])
          (tr ++ [Event.invoke tc.name (PyVal.dict [])]) true := by
  have hp : parsedArgs tc = PyVal.dict [] := by
    rw [parsedArgs, hparse]
    rfl
  refine ⟨hp, ?_⟩
  rw [show execBatch callTool (tc :: rest) ms tr made
      = if tc.type = "function" then
          execBatch callTool rest (ms ++ [Msg.tool tc.id (answerText callTool tc)])
            (tr ++ [Event.invoke tc.name (parsedArgs tc)]) true
        else execBatch callTool rest ms tr made from rfl]
  rw [if_pos hfn, hp]

/-- Claim C8, confirmed: when dispatching a function-typed request raises
(`Except.error e`), the loop appends a tool message whose content is the
literal error description `"Error: " ++ e` instead of re-raising, keeps
processing the batch, and — the `tool_calls_made` flag being set — proceeds
to issue the next continuation completion request; the failed call never
aborts the run (the embedding is total). -/
theorem tool_error_absorbed (model : List Msg → Bool → AssistantMsg)
    (callTool : String → PyVal → Except String PyVal)
    {tc : ToolCall} (rest : List ToolCall) (ms : List Msg) (tr : List Event) {e : String}
    (hfn : tc.type = "function")
    (herr : callTool tc.name (parsedArgs tc) = Except.error e) :
    execBatch callTool (tc :: rest) ms tr false
      = execBatch callTool rest (ms ++ [Msg.tool tc.id ("Error: " ++ e)])
          (tr ++ [Event.invoke tc.name (parsedArgs tc)]) true
    ∧ Msg.tool tc.id ("Error: " ++ e) ∈ (execBatch callTool (tc :: rest) ms tr false).1
    ∧ ∀ (r : Nat) (msg : AssistantMsg) (it : Nat), msg.tool_calls = tc :: rest →
        ∃ l, (loopGo model callTool (r + 1) msg ms tr it).2.2
          = (execBatch callTool (tc :: rest) ms tr false).2.1
            ++ Event.completionRequest
                ((execBatch callTool (tc :: rest) ms tr false).1 ++ [nudgeMsg]) true :: l := by
  have hans : answerText callTool tc = "Error: " ++ e := by
    rw [answerText, herr]
  have hstep : execBatch callTool (tc :: rest) ms tr false
      = execBatch callTool rest (ms ++ [Msg.tool tc.id ("Error: " ++ e)])
          (tr ++ [Event.invoke tc.name (parsedArgs tc)]) true := by
    rw [show execBatch callTool (tc :: rest) ms tr false
        = if tc.type = "function" then
            execBatch callTool rest (ms ++ [Msg.tool tc.id (answerText callTool tc)])
              (tr ++ [Event.invoke tc.name (parsedArgs tc)]) true
          else execBatch callTool rest ms tr false from rfl]
    rw [if_pos hfn, hans]
  refine ⟨hstep, ?_, ?_⟩
  · rw [hstep]
    obtain ⟨l, hl⟩ := execBatch_msgs_ext callTool rest
      (ms ++ [Msg.tool tc.id ("Error: " ++ e)]) (tr ++ [Event.invoke tc.name (parsedArgs tc)]) true
    rw [hl]
    simp
  · intro r msg it hcalls
    have hmade : (execBatch callTool msg.tool_calls ms tr false).2.2 = true := by
      rw [hcalls]
      exact execBatch_made_of_mem callTool (List.mem_cons_self tc rest) hfn ms tr false
    rw [loopGo_succ_made model callTool r msg ms tr it hmade rfl rfl rfl, hcalls]
    by_cases hdone : (model ((execBatch callTool (tc :: rest) ms tr false).1 ++ [nudgeMsg])
        true).tool_calls = []
    · rw [if_pos hdone]
      exact ⟨[], rfl⟩
    · rw [if_neg hdone]
      obtain ⟨l2, hl2⟩ := loopGo_trace_ext model callTool r
        (model ((execBatch callTool (tc :: rest) ms tr false).1 ++ [nudgeMsg]) true)
        ((execBatch callTool (tc :: rest) ms tr false).1
          ++ [Msg.assistant (contentOr (model ((execBatch callTool (tc :: rest) ms tr false).1
                ++ [nudgeMsg]) true))
              (model ((execBatch callTool (tc :: rest) ms tr false).1
                ++ [nudgeMsg]) true).tool_calls])
        ((execBatch callTool (tc :: rest) ms tr false).2.1
          ++ [Event.completionRequest ((execBatch callTool (tc :: rest) ms tr false).1
                ++ [nudgeMsg]) true])
        (it + 1)
      refine ⟨l2, ?_⟩
      rw [hl2]
      simp

lemma execBatch_filter_fn (callTool : String → PyVal → Except String PyVal)
    (tcs : List ToolCall) (ms : List Msg) (tr : List Event) (made : Bool) :
    execBatch callTool tcs ms tr made
      = (ms ++ batchAnswers callTool (tcs.filter (fun tc => tc.type == "function")),
         tr ++ batchInvokes (tcs.filter (fun tc => tc.type == "function")),
         made || !(tcs.filter (fun tc => tc.type == "function")).isEmpty) := by
  induction tcs generalizing ms tr made with
  | nil => simp [execBatch, batchAnswers, batchInvokes]
  | cons tc rest ih =>
    rw [show execBatch callTool (tc :: rest) ms tr made
        = if tc.type = "function" then
            execBatch callTool rest (ms ++ [Msg.tool tc.id (answerText callTool tc)])
              (tr ++ [Event.invoke tc.name (parsedArgs tc)]) true
          else execBatch callTool rest ms tr made from rfl]
    by_cases htc : tc.type = "function"
    · rw [if_pos htc, ih]
      simp [List.filter_cons, htc, batchAnswers, batchInvokes, List.append_assoc]
    · rw [if_neg htc, ih]
      simp [List.filter_cons, htc]

/-- Claim C10, confirmed: in every batch — mixed or not, in any round — a
tool-call entry whose type is not `"function"` is neither dispatched through
the capability session nor answered by a tool message: the dispatched events
and the appended tool messages of a round are exactly the order-preserving
map of the function-typed entries of the batch, and the `tool_calls_made`
flag is set only by them.  When a round's batch contains no function-typed
entry at all, that loop iteration appends nothing, dispatches nothing and
exits without issuing another continuation completion request; when this
happens on the very first response, the run keeps the already-appended
assistant message, reports one iteration and goes straight to the
finalization request with no invoke in the whole trace. -/
theorem non_function_entries_skipped (model : List Msg → Bool → AssistantMsg)
    (callTool : String → PyVal → Except String PyVal) :
    (∀ (tcs : List ToolCall) (ms : List Msg) (tr : List Event) (made : Bool),
      execBatch callTool tcs ms tr made
        = (ms ++ batchAnswers callTool (tcs.filter (fun tc => tc.type == "function")),
           tr ++ batchInvokes (tcs.filter (fun tc => tc.type == "function")),
           made || !(tcs.filter (fun tc => tc.type == "function")).isEmpty))
    ∧ (∀ (r : Nat) (msg : AssistantMsg) (ms : List Msg) (tr : List Event) (it : Nat),
        (∀ tc ∈ msg.tool_calls, tc.type ≠ "function") →
        loopGo model callTool (r + 1) msg ms tr it = (it + 1, ms, tr))
    ∧ (∀ (sys usr : String) (tcs : List ToolCall), tcs ≠ [] →
        (model [Msg.system sys, Msg.user usr] true).tool_calls = tcs →
        (∀ tc ∈ tcs, tc.type ≠ "function") →
        (main_run model callTool sys usr).messages
            = [Msg.system sys, Msg.user usr,
               Msg.assistant (contentOr (model [Msg.system sys, Msg.user usr] true)) tcs]
        ∧ (main_run model callTool sys usr).trace
            = [Event.completionRequest [Msg.system sys, Msg.user usr] true,
               Event.completionRequest [Msg.system sys, Msg.user usr,
                 Msg.assistant (contentOr (model [Msg.system sys, Msg.user usr] true)) tcs]
                 false]
        ∧ (main_run model callTool sys usr).iterations = 1
        ∧ hasInvoke (main_run model callTool sys usr).trace = false) := by
  refine ⟨execBatch_filter_fn callTool, ?_, ?_⟩
  · intro r msg ms tr it hnofn
    rw [loopGo_succ_eq, execBatch_no_fn callTool msg.tool_calls hnofn ms tr false]
    rw [if_pos rfl]
  · intro sys usr tcs hne hcalls hnofn
    have h0 : (model [Msg.system sys, Msg.user usr] true).tool_calls ≠ [] := by
      rw [hcalls]
      exact hne
    obtain ⟨ho, hi, hms, ht⟩ := agent_run_with_tools model callTool sys usr 10 h0 rfl rfl
    have hres : loopGo model callTool 10 (model [Msg.system sys, Msg.user usr] true)
        ([Msg.system sys, Msg.user usr]
          ++ [Msg.assistant (contentOr (model [Msg.system sys, Msg.user usr] true))
                (model [Msg.system sys, Msg.user usr] true).tool_calls])
        [Event.completionRequest [Msg.system sys, Msg.user usr] true] 0
        = (1, [Msg.system sys, Msg.user usr]
            ++ [Msg.assistant (contentOr (model [Msg.system sys, Msg.user usr] true))
                  (model [Msg.system sys, Msg.user usr] true).tool_calls],
            [Event.completionRequest [Msg.system sys, Msg.user usr] true]) := by
      rw [show (10 : Nat) = 9 + 1 from rfl, loopGo_succ_eq, hcalls,
        execBatch_no_fn callTool tcs hnofn _ _ _]
      rw [if_pos rfl]
    refine ⟨?_, ?_, ?_, ?_⟩
    · show (agent_run model callTool sys usr 10).messages = _
      rw [hms, hres, hcalls]
      rfl
    · show (agent_run model callTool sys usr 10).trace = _
      rw [ht, hres, hcalls]
      rfl
    · show (agent_run model callTool sys usr 10).iterations = 1
      rw [hi, hres]
    · show hasInvoke (agent_run model callTool sys usr 10).trace = false
      rw [ht, hres]
      rfl

/-- Claim C5, confirmed: `tool_result_to_text` is total — it never raises
and always returns a string (the embedding catches every failure path by
construction, mirroring the `except Exception` handler).  On a well-formed
content-block result — a dict whose `"content"` is a list whose
`"text"`-typed blocks carry string texts (`blockTexts` succeeds) — it
returns exactly the newline-join of those texts in block order; on every
other input, including malformed shapes, objects without `get` and null,
the handler yields the fallback rendering `str(result)`. -/
theorem tool_result_to_text_spec (r : PyVal) :
    (∀ kvs blocks ts, r = PyVal.dict kvs →
      (dictGet kvs "content").getD (PyVal.list []) = PyVal.list blocks →
      blockTexts blocks = some ts →
      tool_result_to_text r = String.intercalate "\n" ts)
    ∧ ((∃ kvs blocks ts, r = PyVal.dict kvs
        ∧ (dictGet kvs "content").getD (PyVal.list []) = PyVal.list blocks
        ∧ blockTexts blocks = some ts) ∨ tool_result_to_text r = pyStr r) := by
  constructor
  · intro kvs blocks ts hr hc hb
    subst hr
    rw [tool_result_to_text, hc]
    simp only [hb]
  · cases r with
    | dict kvs =>
      cases hc : (dictGet kvs "content").getD (PyVal.list []) with
      | list blocks =>
        cases hb : blockTexts blocks with
        | some ts => exact Or.inl ⟨kvs, blocks, ts, rfl, hc, hb⟩
        | none =>
          right
          rw [tool_result_to_text, hc]
          simp only [hb]
      | none =>
        right
        rw [tool_result_to_text, hc]
      | bool b =>
        right
        rw [tool_result_to_text, hc]
      | int n =>
        right
        rw [tool_result_to_text, hc]
      | str s =>
        right
        rw [tool_result_to_text, hc]
      | dict kvs2 =>
        right
        rw [tool_result_to_text, hc]
    | none => exact Or.inr rfl
    | bool b => exact Or.inr rfl
    | int n => exact Or.inr rfl
    | str s => exact Or.inr rfl
    | list xs => exact Or.inr rfl

/-- Claim C6, corrected: the produced `description` and `parameters` are
never null for object-shaped descriptors (Python `or` coalesces null) and
for dictionary-shaped descriptors whose present `"description"` and
`"inputSchema"` keys hold non-null values (absent keys get the defaults).
The claim's unrestricted form fails: a dictionary descriptor whose
`"description"` (or `"inputSchema"`) key is present with an explicit null
propagates the null into the FunctionSpec, because `dict.get` substitutes
the default only when the key is absent — see the counterexample. -/
theorem schema_nonnull_amended (tools : List ToolDesc)
    (hdict : ∀ kvs, ToolDesc.dict kvs ∈ tools →
      dictGet kvs "description" ≠ some PyVal.none
      ∧ dictGet kvs "inputSchema" ≠ some PyVal.none) :
    ∀ s ∈ build_openai_tools_schema tools,
      s.description ≠ PyVal.none ∧ s.parameters ≠ PyVal.none := by
  intro s hs
  rw [build_openai_tools_schema] at hs
  obtain ⟨tool, htool, rfl⟩ := List.mem_map.mp hs
  cases tool with
  | obj name description inputSchema =>
    constructor
    · show (if pyTruthy description then description else PyVal.str "") ≠ PyVal.none
      by_cases hT : pyTruthy description = true
      · rw [if_pos hT]
        intro heq
        rw [heq] at hT
        exact Bool.noConfusion hT
      · rw [if_neg hT]
        exact fun heq => PyVal.noConfusion heq
    · show (if pyTruthy inputSchema then inputSchema else emptySchema) ≠ PyVal.none
      by_cases hT : pyTruthy inputSchema = true
      · rw [if_pos hT]
        intro heq
        rw [heq] at hT
        exact Bool.noConfusion hT
      · rw [if_neg hT]
        exact fun heq => PyVal.noConfusion heq
  | dict kvs =>
    obtain ⟨hd, hp⟩ := hdict kvs htool
    constructor
    · show (dictGet kvs "description").getD (PyVal.str "") ≠ PyVal.none
      cases hdg : dictGet kvs "description" with
      | none => exact fun heq => PyVal.noConfusion heq
      | some v =>
        intro heq
        rw [Option.getD_some] at heq
        subst heq
        exact hd hdg
    · show (dictGet kvs "inputSchema").getD emptySchema ≠ PyVal.none
      cases hdg : dictGet kvs "inputSchema" with
      | none => exact fun heq => PyVal.noConfusion heq
      | some v =>
        intro heq
        rw [Option.getD_some] at heq
        subst heq
        exact hp hdg

/-- Claim C9, corrected: `stop` is safe and a no-op whenever `open` never
assigned the underlying client — `start` never called, or the `Client`
constructor raised before the assignment.  But `stop` itself adds no
idempotence guard: `self.client` is never reset, so after a successful start
every `stop`, including a second one after a successful close (and a `stop`
after `__aenter__` raised partway), delegates another `__aexit__` call to
the underlying FastMCP client; idempotence holds only if that client's
`__aexit__` tolerates repeated calls — see the counterexample. -/
theorem stop_safety_amended :
    MCPClient.init.stop = (MCPClient.init, [])
    ∧ (∀ e : Bool, ((MCPClient.init.start false e).1).stop = (MCPClient.init, []))
    ∧ ((MCPClient.init.start true true).1).stop
        = ({ client := some () }, [SessionEvent.exit])
    ∧ (∀ e : Bool, ((MCPClient.init.start true e).1).stop
        = ({ client := some () }, [SessionEvent.exit]))
    ∧ ((((MCPClient.init.start true true).1).stop).1).stop
        = ({ client := some () }, [SessionEvent.exit]) :=
  ⟨rfl, fun _ => rfl, rfl, fun _ => rfl, rfl⟩

lemma mem_le_foldr_max (xs : List Nat) (x : Nat) (hx : x ∈ xs) :
    x ≤ xs.foldr max 0 := by
  induction xs with
  | nil => cases hx
  | cons y ys ih =>
    rcases List.mem_cons.mp hx with rfl | hmem
    · exact le_max_left _ _
    · exact le_trans (ih hmem) (le_max_right _ _)

lemma freshId_not_mem (l : List String) : freshId l ∉ l := by
  intro hmem
  have hlenmem : (freshId l).length ∈ l.map String.length :=
    List.mem_map_of_mem String.length hmem
  have hle := mem_le_foldr_max (l.map String.length) _ hlenmem
  have hlen : (freshId l).length = (l.map String.length).foldr max 0 + 1 := by
    show (String.mk (List.replicate ((l.map String.length).foldr max 0 + 1) 'a')).length = _
    rw [String.length]
    exact List.length_replicate _ _
  omega

lemma agent_run_seed_request_mem (model : List Msg → Bool → AssistantMsg)
    (callTool : String → PyVal → Except String PyVal) (sys usr : String) (cap : Nat) :
    Event.completionRequest [Msg.system sys, Msg.user usr] true
      ∈ (agent_run model callTool sys usr cap).trace := by
  by_cases h0 : (model [Msg.system sys, Msg.user usr] true).tool_calls = []
  · rw [agent_run_no_tools model callTool sys usr cap h0]
    exact List.mem_singleton.mpr rfl
  · obtain ⟨_, _, _, ht⟩ := agent_run_with_tools model callTool sys usr cap h0 rfl rfl
    rw [ht]
    apply List.mem_append.mpr
    left
    obtain ⟨l, hl⟩ := loopGo_trace_ext model callTool cap _ _ _ _
    rw [hl]
    exact List.mem_append.mpr (Or.inl (List.mem_singleton.mpr rfl))

/-! ### Witnesses and counterexamples -/

/-- Claim C1, counterexample to the claim as stated: with the default cap 10
and a stub model that requests a function-typed tool call on every
completion, the run issues 11 completion requests with the tool schema
attached, not 10. -/
theorem cap_transition_count_counterexample :
    toolRequestCount (main_run cxModel cxTool "s" "u").trace = 11
    ∧ toolRequestCount (main_run cxModel cxTool "s" "u").trace ≠ 10 :=
  ⟨rfl, by decide⟩

/-- Claim C1, witness for the amended theorem at cap 2. -/
theorem iteration_cap_amended_witness :
    (agent_run cxModel cxTool "s" "u" 2).iterations = 2
    ∧ toolRequestCount (agent_run cxModel cxTool "s" "u" 2).trace = 2 + 1
    ∧ plainRequestCount (agent_run cxModel cxTool "s" "u" 2).trace = 1 :=
  iteration_cap_amended cxModel cxTool "s" "u" 2
    (fun _ => ⟨cxTc, List.mem_singleton.mpr rfl, rfl⟩)

/-- Claim C2, counterexample to the claim as stated: in a cap-hit run (stub
model always requesting one function-typed call with a per-call-distinct
id), the finalization completion request is issued over a transcript whose
final assistant message carries unanswered requests, so the pairing
invariant fails at that request. -/
theorem transcript_invariant_counterexample :
    Event.completionRequest (main_run dxModel cxTool "s" "u").messages false
        ∈ (main_run dxModel cxTool "s" "u").trace
    ∧ transcriptOK (main_run dxModel cxTool "s" "u").messages = false := by
  constructor
  · have h0 : (dxModel [Msg.system "s", Msg.user "u"] true).tool_calls ≠ [] := by
      intro h
      exact List.noConfusion h
    obtain ⟨_, _, hms, ht⟩ := agent_run_with_tools dxModel cxTool "s" "u" 10 h0 rfl rfl
    show Event.completionRequest (agent_run dxModel cxTool "s" "u" 10).messages false
        ∈ (agent_run dxModel cxTool "s" "u" 10).trace
    rw [ht, hms]
    exact List.mem_append.mpr (Or.inr (List.mem_singleton.mpr rfl))
  · rfl

/-- Claim C2, witness for the amended theorem: the initial tool-schema
request of a run with the fresh-id stub model satisfies the invariant. -/
theorem transcript_invariant_amended_witness :
    transcriptOK [Msg.system "s", Msg.user "u"] = true := by
  have hNodup : ∀ m b, (((fxModel m b).tool_calls).map ToolCall.id).Nodup := by
    intro m b
    exact List.nodup_singleton _
  have hType : ∀ m b, ∀ tc ∈ (fxModel m b).tool_calls, tc.type = "function" := by
    intro m b tc htc
    have := List.mem_singleton.mp htc
    subst this
    rfl
  have hFresh : ∀ m b, ∀ tc ∈ (fxModel m b).tool_calls,
      tc.id ∉ asstIds m ∧ tc.id ∉ toolIdsOf m := by
    intro m b tc htc
    have := List.mem_singleton.mp htc
    subst this
    constructor
    · intro hmem
      exact freshId_not_mem (asstIds m ++ toolIdsOf m) (List.mem_append.mpr (Or.inl hmem))
    · intro hmem
      exact freshId_not_mem (asstIds m ++ toolIdsOf m) (List.mem_append.mpr (Or.inr hmem))
  exact transcript_invariant_amended fxModel cxTool "s" "u" 10 hNodup hType hFresh
    [Msg.system "s", Msg.user "u"]
    (agent_run_seed_request_mem fxModel cxTool "s" "u" 10)

/-- Claim C3, witness: both halves of the finalization policy at concrete
stub models (one that always requests tools, one that never does). -/
theorem finalization_policy_witness :
    (plainRequestCount (main_run cxModel cxTool "s" "u").trace = 1
      ∧ (main_run cxModel cxTool "s" "u").trace.getLast?
          = some (Event.completionRequest (main_run cxModel cxTool "s" "u").messages false)
      ∧ (main_run cxModel cxTool "s" "u").output
          = (cxModel (main_run cxModel cxTool "s" "u").messages false).content)
    ∧ ((main_run exModel cxTool "s" "u").trace
          = [Event.completionRequest [Msg.system "s", Msg.user "u"] true]
      ∧ (main_run exModel cxTool "s" "u").output
          = (exModel [Msg.system "s", Msg.user "u"] true).content) :=
  ⟨(finalization_policy cxModel cxTool "s" "u").1 rfl,
   (finalization_policy exModel cxTool "s" "u").2 rfl⟩

/-- Claim C4, witness: a two-call batch is dispatched in order and answered
in order. -/
theorem sequential_dispatch_order_witness :
    execBatch cxTool [wTc1, wTc2] [] [] false
      = ([Msg.tool "a" "", Msg.tool "b" ""],
         [Event.invoke "n1" (PyVal.dict []), Event.invoke "n2" (PyVal.dict [])], true) := by
  have hfn : ∀ tc ∈ [wTc1, wTc2], tc.type = "function" := by
    intro tc htc
    rcases List.mem_cons.mp htc with h1 | h1
    · subst h1
      rfl
    · have := List.mem_singleton.mp h1
      subst this
      rfl
  rw [sequential_dispatch_order cxTool [wTc1, wTc2] hfn [] [] false]
  rfl

/-- Claim C5, witness: a well-formed two-text-block result joins to
`"A\nB"`, and the null result falls back to `str(result)`. -/
theorem tool_result_to_text_spec_witness :
    tool_result_to_text wfResult = "A\nB"
    ∧ tool_result_to_text PyVal.none = pyStr PyVal.none := by
  constructor
  · have h := (tool_result_to_text_spec wfResult).1
      [("content", PyVal.list
        [PyVal.dict [("type", PyVal.str "text"), ("text", PyVal.str "A")],
         PyVal.dict [("type", PyVal.str "image")],
         PyVal.dict [("type", PyVal.str "text"), ("text", PyVal.str "B")]])]
      [PyVal.dict [("type", PyVal.str "text"), ("text", PyVal.str "A")],
       PyVal.dict [("type", PyVal.str "image")],
       PyVal.dict [("type", PyVal.str "text"), ("text", PyVal.str "B")]]
      ["A", "B"] rfl rfl rfl
    rw [h]
    rfl
  · rcases (tool_result_to_text_spec PyVal.none).2 with h | h
    · obtain ⟨kvs, blocks, ts, heq, _, _⟩ := h
      exact PyVal.noConfusion heq
    · exact h

/-- Claim C6, counterexample to the claim as stated: a dictionary-shaped
descriptor whose `"description"` key holds an explicit null produces a
FunctionSpec with a null description. -/
theorem schema_nonnull_counterexample :
    FunctionSpec.description
      ({ name := PyVal.str "t", description := PyVal.none, parameters := emptySchema })
        = PyVal.none
    ∧ ({ name := PyVal.str "t", description := PyVal.none, parameters := emptySchema } :
        FunctionSpec)
      ∈ build_openai_tools_schema
          [ToolDesc.dict [("name", PyVal.str "t"), ("description", PyVal.none)]] := by
  refine ⟨rfl, ?_⟩
  rw [show build_openai_tools_schema
      [ToolDesc.dict [("name", PyVal.str "t"), ("description", PyVal.none)]]
    = [{ name := PyVal.str "t", description := PyVal.none, parameters := emptySchema }]
    from rfl]
  exact List.mem_singleton.mpr rfl

/-- Claim C6, witness for the amended theorem at a dictionary descriptor
with both keys absent. -/
theorem schema_nonnull_amended_witness :
    ({ name := PyVal.str "u", description := PyVal.str "", parameters := emptySchema } :
        FunctionSpec).description ≠ PyVal.none
    ∧ ({ name := PyVal.str "u", description := PyVal.str "", parameters := emptySchema } :
        FunctionSpec).parameters ≠ PyVal.none := by
  have hdict : ∀ kvs, ToolDesc.dict kvs ∈ [ToolDesc.dict [("name", PyVal.str "u")]] →
      dictGet kvs "description" ≠ some PyVal.none
      ∧ dictGet kvs "inputSchema" ≠ some PyVal.none := by
    intro kvs hk
    have := List.mem_singleton.mp hk
    injection this with hkvs
    subst hkvs
    constructor
    · intro h
      exact Option.noConfusion h
    · intro h
      exact Option.noConfusion h
  have hmem : FunctionSpec.mk (PyVal.str "u") (PyVal.str "") emptySchema
      ∈ build_openai_tools_schema [ToolDesc.dict [("name", PyVal.str "u")]] := by
    rw [show build_openai_tools_schema [ToolDesc.dict [("name", PyVal.str "u")]]
      = [FunctionSpec.mk (PyVal.str "u") (PyVal.str "") emptySchema] from rfl]
    exact List.mem_singleton.mpr rfl
  exact schema_nonnull_amended [ToolDesc.dict [("name", PyVal.str "u")]] hdict _ hmem

/-- Claim C7, witness: the unparseable payload `"not json"` yields the empty
argument set, the call is still dispatched and the batch continues. -/
theorem parse_failure_empty_args_witness :
    parsedArgs wBadTc = PyVal.dict []
    ∧ execBatch cxTool [wBadTc] [] [] false
      = execBatch cxTool []
          ([] ++ [Msg.tool wBadTc.id (answerText cxTool wBadTc)])
          ([] ++ [Event.invoke wBadTc.name (PyVal.dict [])]) true :=
  parse_failure_empty_args cxTool wBadTc [] [] [] false rfl rfl

/-- Claim C8, witness: a raising tool call is answered by an error-text tool
message and absorbed. -/
theorem tool_error_absorbed_witness :
    execBatch wErrTool [wTc1] [] [] false
      = execBatch wErrTool [] ([] ++ [Msg.tool wTc1.id ("Error: " ++ "boom")])
          ([] ++ [Event.invoke wTc1.name (parsedArgs wTc1)]) true
    ∧ Msg.tool wTc1.id ("Error: " ++ "boom") ∈ (execBatch wErrTool [wTc1] [] [] false).1 := by
  have h := tool_error_absorbed cxModel wErrTool [] [] []
    (show wTc1.type = "function" from rfl)
    (show wErrTool wTc1.name (parsedArgs wTc1) = Except.error "boom" from rfl)
  exact ⟨h.1, h.2.1⟩

/-- Claim C9, counterexample to the claim as stated: after a successful
start and a successful stop, `self.client` is still set, so a second `stop`
delegates another `__aexit__` call to the underlying client — it is not
effect-free. -/
theorem stop_idempotence_counterexample :
    ((((MCPClient.init.start true true).1).stop).1).stop
        = ({ client := some () }, [SessionEvent.exit])
    ∧ ((((MCPClient.init.start true true).1).stop).1).stop.2 ≠ ([] : List SessionEvent) :=
  ⟨rfl, by decide⟩

/-- Claim C10, witness: in the mixed batch `[wTc1, nfTc, wTc2]` only the two
function-typed entries are dispatched and answered, in order, with the
non-function entry skipped between them; a later-round batch holding only
the non-function entry exits the loop unchanged without a continuation
request; and the run whose first batch is that entry finalizes with no
invoke at all. -/
theorem non_function_entries_skipped_witness :
    execBatch cxTool [wTc1, nfTc, wTc2] [] [] false
      = ([Msg.tool "a" "", Msg.tool "b" ""],
         [Event.invoke "n1" (PyVal.dict []), Event.invoke "n2" (PyVal.dict [])], true)
    ∧ loopGo nfModel cxTool 4 nfAsst [] [] 5 = (6, [], [])
    ∧ (main_run nfModel cxTool "s" "u").messages
        = [Msg.system "s", Msg.user "u", Msg.assistant "c" [nfTc]]
    ∧ (main_run nfModel cxTool "s" "u").trace
        = [Event.completionRequest [Msg.system "s", Msg.user "u"] true,
           Event.completionRequest [Msg.system "s", Msg.user "u",
             Msg.assistant "c" [nfTc]] false]
    ∧ (main_run nfModel cxTool "s" "u").iterations = 1
    ∧ hasInvoke (main_run nfModel cxTool "s" "u").trace = false := by
  obtain ⟨hA, hB, hC⟩ := non_function_entries_skipped nfModel cxTool
  have hrun := hC "s" "u" [nfTc] (fun h => List.noConfusion h) rfl
    (fun tc htc => by
      have := List.mem_singleton.mp htc
      subst this
      exact (by decide : nfTc.type ≠ "function"))
  refine ⟨?_, ?_, hrun.1, hrun.2.1, hrun.2.2.1, hrun.2.2.2⟩
  · rw [hA [wTc1, nfTc, wTc2] [] [] false]
    rfl
  · have h := hB 3 nfAsst [] [] 5 (fun tc htc => by
      have := List.mem_singleton.mp htc
      subst this
      exact (by decide : nfTc.type ≠ "function"))
    exact h
